import Mathlib

/-! A shallow embedding of the `smart-runner` interactive command picker
(src/command.rs, src/suggestion.rs, src/screen.rs, src/main.rs), together
with theorems about the placeholder template parser, the suggestion
engine, and the keystroke-driven editor state machine.

Strings are modelled by Lean `String` (a list of characters); Rust's
byte-lexicographic `String` ordering coincides with lexicographic order
on the character lists, which is how commands are compared below.
`HashSet` values are modelled by duplicate-free lists (`List.dedup`);
`HashMap` iteration order is unspecified in Rust, so functions that
iterate the keyword index take an explicit key-enumeration parameter
`keys`, constrained by `KeysOf` where a theorem needs it.
-/

/-- Tagged keyword committed by the user (src/main.rs, src/screen.rs
`ValidatedKeyword`): `valid` when the string was a key of the catalog
index at committal time, `invalid` otherwise. -/
inductive ValidatedKeyword where
  | valid (kw : String)
  | invalid (kw : String)
deriving DecidableEq

/-- Parsed command template (src/command.rs `Placeholders`): the original
text, the literal chunks, and the placeholder names. -/
structure Placeholders where
  original : String
  cmd_chunks : List String
  names : List String
deriving DecidableEq

/-- One pass of the Rust `regex` crate's `captures_iter` over the pattern
`([^{]*)(\x5c{([^}]*?)\x5c})?`, as used by `Placeholders::parse`.

At every position the pattern matches: group 1 is the longest run of
non-`{` characters, and group 2 matches when that run is followed by `{`
with a `}` somewhere later (group 3 is lazily the text up to the first
such `}`).  The iterator yields successive matches; an empty match is
skipped when it starts exactly where the previous match ended, and the
search then resumes one character further (`adj` records whether the
current position is the end of the previously yielded match).  `fuel`
is structural fuel; `Placeholders.parse` supplies `length + 1`, which
always suffices because every recursive call strictly shortens the
remaining text. -/
def parseGo : Nat → List Char → Bool → List (List Char) × List (List Char)
  | 0, _, _ => ([], [])
  | _ + 1, [], true => ([], [])
  | _ + 1, [], false => ([[]], [])
  | fuel + 1, t@(_ :: _), adj =>
    match t.dropWhile (fun c => c != '\x7b') with
    | [] => ([t], [])
    | brace :: rest =>
      match rest.dropWhile (fun c => c != '\x7d') with
      | _ :: after =>
        let r := parseGo fuel after true
        ((t.takeWhile (fun c => c != '\x7b')) :: r.1,
         (rest.takeWhile (fun c => c != '\x7d')) :: r.2)
      | [] =>
        if (t.takeWhile (fun c => c != '\x7b')).isEmpty then
          if adj then parseGo fuel rest false
          else
            let r := parseGo fuel rest false
            ([] :: r.1, r.2)
        else
          let r := parseGo fuel (brace :: rest) true
          ((t.takeWhile (fun c => c != '\x7b')) :: r.1, r.2)

/-- `Placeholders::parse` (src/command.rs).  The Rust function returns a
`Result` whose only failure source is compiling the fixed, valid regex
pattern, so it is total in practice and modelled as such. -/
def Placeholders.parse (cmd : String) : Placeholders :=
  { original := cmd,
    cmd_chunks := (parseGo (cmd.data.length + 1) cmd.data false).1.map (fun l => String.mk l),
    names := (parseGo (cmd.data.length + 1) cmd.data false).2.map (fun l => String.mk l) }

/-- Syntactic scan deciding whether the text ends exactly at the closing
brace of a well-formed placeholder: skip to the first opening brace, skip
to the first closing brace after it, and recurse on the remainder; true
iff that closing brace is the last character.  Defined on the raw string,
independently of the parser, with the same structural fuel as `parseGo`
so that the two scans walk the text in step. -/
def endsWithPlaceholderGo : Nat → List Char → Bool
  | 0, _ => false
  | fuel + 1, t =>
    match t.dropWhile (fun c => c != '\x7b') with
    | [] => false
    | _ :: rest =>
      match rest.dropWhile (fun c => c != '\x7d') with
      | [] => false
      | _ :: after => if after.isEmpty then true else endsWithPlaceholderGo fuel after

/-- A string ends with a well-formed placeholder: its last character is
the closing brace of a `chunk "\x7b" name "\x7d"` group of the template
grammar. -/
def endsWithPlaceholder (s : String) : Bool :=
  endsWithPlaceholderGo (s.data.length + 1) s.data

/-- Itertools `interleave`, as used by `Placeholders::interpolate`:
alternate elements of the two lists starting with the first, and once one
list is exhausted, append the rest of the other. -/
def interleave : List String → List String → List String
  | [], ys => ys
  | x :: xs, [] => x :: xs
  | x :: xs, y :: ys => x :: y :: interleave xs ys

/-- `Placeholders::interpolate` (src/command.rs): interleave the chunks
with the values and concatenate. -/
def Placeholders.interpolate (p : Placeholders) (values : List String) : String :=
  String.join (interleave p.cmd_chunks values)

/-- A catalog command (src/command.rs `Command`; src/main.rs stores the
template as its raw string, which corresponds to `cmd.original`). -/
structure Command where
  cmd : Placeholders
  description : Option String
  keywords : List String
deriving DecidableEq

/-- The canonical command order (src/command.rs `impl Ord for Command`):
lexicographic on the template's original text.  Rust compares `String`s
byte-lexicographically, which on valid UTF-8 equals lexicographic order
on the character sequences. -/
def cmdLE (a b : Command) : Prop := a.cmd.original.data ≤ b.cmd.original.data

instance : DecidableRel cmdLE :=
  fun a b => inferInstanceAs (Decidable (a.cmd.original.data ≤ b.cmd.original.data))

instance : IsTotal Command cmdLE :=
  ⟨fun a b => le_total a.cmd.original.data b.cmd.original.data⟩

instance : IsTrans Command cmdLE :=
  ⟨fun _ _ _ h1 h2 => le_trans h1 h2⟩

/-- `Vec::sort_by` with the canonical command comparator
(src/suggestion.rs line 41).  Rust's sort is stable, as is insertion
sort, so the two agree. -/
def sortCommands (l : List Command) : List Command := List.insertionSort cmdLE l

/-- The set of commands the inverted index `kwd2cmd` associates with a
keyword (src/command.rs `Commands::new_rc`, src/main.rs `Runner::new`):
exactly the commands listing that keyword.  The Rust value is a
`HashSet<Rc<Command>>` comparing by record value, modelled as a
duplicate-free list. -/
def kwdIndex (catalog : List Command) (kw : String) : List Command :=
  (catalog.filter (fun c => c.keywords.contains kw)).dedup

/-- `contains_key` on the inverted index: a string is a key iff some
catalog command lists it as a keyword. -/
def hasKeyword (catalog : List Command) (kw : String) : Bool :=
  catalog.any (fun c => c.keywords.contains kw)

/-- The `validated_commands` set (src/suggestion.rs lines 20-27,
src/main.rs lines 166-173): all catalog commands when no keyword is
validated, otherwise the commands whose keyword list contains every
validated keyword; a `HashSet`, modelled as a duplicate-free list. -/
def validatedCommands (catalog : List Command) (validated_keywords : List String) : List Command :=
  (if validated_keywords.isEmpty then catalog
   else catalog.filter (fun c =>
     validated_keywords.all (fun kw => c.keywords.contains kw))).dedup

/-- The shared filtering algorithm of `Suggestion::from_input`
(src/suggestion.rs lines 18-40) and `Runner::filter_commands`
(src/main.rs lines 154-187), before the sort that only `from_input`
performs.  `keys` enumerates the keys of the `kwd2cmd` hash map (its
iteration order is unspecified in Rust).  Returns the suggested keyword
list and the accumulated command list. -/
def suggestionCore (keys : List String) (catalog : List Command) (input : String)
    (validated_keywords : List String) : List String × List Command :=
  if input.data.isEmpty then
    ([], validatedCommands catalog validated_keywords)
  else
    ((keys.filter (fun kw =>
        input.data.isPrefixOf kw.data && !(validated_keywords.contains kw))),
     (keys.filter (fun kw =>
        input.data.isPrefixOf kw.data && !(validated_keywords.contains kw))).flatMap
       (fun kw => (kwdIndex catalog kw).filter
         (fun c => (validatedCommands catalog validated_keywords).contains c)))

/-- A suggestion (src/suggestion.rs `Suggestion`): matching keywords and
matching commands. -/
structure Suggestion where
  keywords : List String
  commands : List Command
deriving DecidableEq

/-- `Suggestion::from_input` (src/suggestion.rs lines 15-44): run the
filtering algorithm, then sort the command list by the canonical order. -/
def Suggestion.from_input (keys : List String) (catalog : List Command) (input : String)
    (validated_keywords : List String) : Suggestion :=
  { keywords := (suggestionCore keys catalog input validated_keywords).1,
    commands := sortCommands (suggestionCore keys catalog input validated_keywords).2 }

/-- `keys` is a legitimate enumeration of the keys of the inverted index
built from `catalog`: no key repeats, and the keys are exactly the
keywords occurring in the catalog. -/
def KeysOf (catalog : List Command) (keys : List String) : Prop :=
  keys.Nodup ∧ ∀ k, k ∈ keys ↔ ∃ c ∈ catalog, k ∈ c.keywords

/-- The multiplicity with which a command occurs in the suggestion
engine's command list: once if it is a validated command and the input is
empty, otherwise once per enumerated keyword that extends the input, is
not already validated, and indexes the command. -/
def suggestedCount (keys : List String) (catalog : List Command) (input : String)
    (validated_keywords : List String) (c : Command) : Nat :=
  if input.data.isEmpty then
    (if c ∈ validatedCommands catalog validated_keywords then 1 else 0)
  else
    (keys.filter (fun kw =>
      input.data.isPrefixOf kw.data && !(validated_keywords.contains kw)
        && (kwdIndex catalog kw).contains c
        && (validatedCommands catalog validated_keywords).contains c)).length

/-- The editor state (src/screen.rs `Screen`; src/main.rs duplicates this
structure).  Terminal-size and position fields are carried for fidelity
but never touched by the editing operations. -/
structure Screen where
  x : Nat
  y : Nat
  prompt : String
  current_line : List Char
  validated_keywords : List ValidatedKeyword
  auto_complete : List String
  selected_auto_complete_index : Option Nat
  commands : List Command
  selected_command_index : Option Nat
  term_size : Nat × Nat
deriving DecidableEq

/-- `Screen::new` (src/screen.rs lines 53-77): the initial editor state
(the 80x10 terminal size is the fallback default). -/
def Screen.init : Screen :=
  { x := 1, y := 1, prompt := "> ", current_line := [],
    validated_keywords := [], auto_complete := [],
    selected_auto_complete_index := none, commands := [],
    selected_command_index := none, term_size := (80, 10) }

/-- `Screen::complete` (src/screen.rs lines 87-93): when a keyword
suggestion is selected, push it as `valid` and clear the input buffer.
The Rust code calls `.get(idx).unwrap()`; the out-of-bounds case (where
Rust would panic, see `Screen.complete_panics`) is modelled as a no-op
and proven unreachable from reachable states. -/
def Screen.complete (s : Screen) : Screen :=
  match s.selected_auto_complete_index with
  | none => s
  | some idx =>
    match s.auto_complete.get? idx with
    | some kw =>
      { s with validated_keywords := s.validated_keywords ++ [ValidatedKeyword.valid kw],
               current_line := [] }
    | none => s

/-- The condition under which the `unwrap` in `Screen::complete` would
panic: an index is selected but out of bounds. -/
def Screen.complete_panics (s : Screen) : Prop :=
  ∃ idx, s.selected_auto_complete_index = some idx ∧ s.auto_complete.get? idx = none

/-- `Screen::add_validated_keyword` (src/screen.rs lines 95-97). -/
def Screen.add_validated_keyword (s : Screen) (vkw : ValidatedKeyword) : Screen :=
  { s with validated_keywords := s.validated_keywords ++ [vkw] }

/-- `Screen::selected_command` (src/screen.rs lines 99-102). -/
def Screen.selected_command (s : Screen) : Option Command :=
  s.selected_command_index.bind (fun idx => s.commands.get? idx)

/-- `Screen::next_suggestion` (src/screen.rs lines 104-108): rotate the
selected keyword index forward modulo the list length. -/
def Screen.next_suggestion (s : Screen) : Screen :=
  match s.selected_auto_complete_index with
  | none => s
  | some i =>
    { s with selected_auto_complete_index := some ((i + 1) % s.auto_complete.length) }

/-- The condition under which `Screen::next_suggestion` would panic in
Rust: `(s + 1) % len` with `len = 0`. -/
def Screen.next_suggestion_panics (s : Screen) : Prop :=
  s.selected_auto_complete_index.isSome = true ∧ s.auto_complete = []

/-- `Screen::previous_suggestion` (src/screen.rs lines 110-114). -/
def Screen.previous_suggestion (s : Screen) : Screen :=
  match s.selected_auto_complete_index with
  | none => s
  | some i =>
    { s with selected_auto_complete_index := some (if i = 0 then s.auto_complete.length - 1 else i - 1) }

/-- The condition under which `Screen::previous_suggestion` would
underflow in Rust: `len() - 1` with `len = 0` (reached when the selected
index is 0). -/
def Screen.previous_suggestion_panics (s : Screen) : Prop :=
  s.selected_auto_complete_index = some 0 ∧ s.auto_complete = []

/-- `Screen::next_command` (src/screen.rs lines 116-120). -/
def Screen.next_command (s : Screen) : Screen :=
  match s.selected_command_index with
  | none => s
  | some i =>
    { s with selected_command_index := some ((i + 1) % s.commands.length) }

/-- The condition under which `Screen::next_command` would panic in Rust. -/
def Screen.next_command_panics (s : Screen) : Prop :=
  s.selected_command_index.isSome = true ∧ s.commands = []

/-- `Screen::previous_command` (src/screen.rs lines 122-126). -/
def Screen.previous_command (s : Screen) : Screen :=
  match s.selected_command_index with
  | none => s
  | some i =>
    { s with selected_command_index := some (if i = 0 then s.commands.length - 1 else i - 1) }

/-- The condition under which `Screen::previous_command` would underflow
in Rust. -/
def Screen.previous_command_panics (s : Screen) : Prop :=
  s.selected_command_index = some 0 ∧ s.commands = []

/-- `Screen::set_auto_complete` (src/screen.rs lines 133-140): replace
the keyword-suggestion list and reset its selection. -/
def Screen.set_auto_complete (s : Screen) (keywords : List String) : Screen :=
  { s with auto_complete := keywords,
           selected_auto_complete_index := if keywords.isEmpty then none else some 0 }

/-- `Screen::set_commands` (src/screen.rs lines 142-149): replace the
command list and reset its selection. -/
def Screen.set_commands (s : Screen) (commands : List Command) : Screen :=
  { s with commands := commands,
           selected_command_index := if commands.isEmpty then none else some 0 }

/-- `Screen::set_suggestion` (src/screen.rs lines 128-131). -/
def Screen.set_suggestion (s : Screen) (sug : Suggestion) : Screen :=
  (s.set_commands sug.commands).set_auto_complete sug.keywords

/-- `Screen::input` (src/screen.rs lines 151-153). -/
def Screen.input (s : Screen) : String := String.mk s.current_line

/-- `Screen::reset_input` (src/screen.rs lines 156-158): atomically take
the input buffer, returning the previous input. -/
def Screen.reset_input (s : Screen) : String × Screen :=
  (String.mk s.current_line, { s with current_line := [] })

/-- `Screen::add` (src/screen.rs lines 160-162). -/
def Screen.add (s : Screen) (key : Char) : Screen :=
  { s with current_line := s.current_line ++ [key] }

/-- `Screen::remove_last_char` (src/screen.rs lines 164-170): drop the
last input character, or, when the buffer is empty, pop the last
validated keyword. -/
def Screen.remove_last_char (s : Screen) : Screen :=
  if s.current_line.isEmpty then
    { s with validated_keywords := s.validated_keywords.dropLast }
  else
    { s with current_line := s.current_line.dropLast }

/-- The public editor operations of `Screen`. -/
inductive ScreenOp where
  | add (key : Char)
  | remove_last_char
  | reset_input
  | add_validated_keyword (vkw : ValidatedKeyword)
  | complete
  | set_suggestion (sug : Suggestion)
  | set_auto_complete (keywords : List String)
  | set_commands (commands : List Command)
  | next_suggestion
  | previous_suggestion
  | next_command
  | previous_command

/-- Apply one public editor operation to the state. -/
def Screen.apply (s : Screen) : ScreenOp → Screen
  | ScreenOp.add k => s.add k
  | ScreenOp.remove_last_char => s.remove_last_char
  | ScreenOp.reset_input => (s.reset_input).2
  | ScreenOp.add_validated_keyword v => s.add_validated_keyword v
  | ScreenOp.complete => s.complete
  | ScreenOp.set_suggestion sug => s.set_suggestion sug
  | ScreenOp.set_auto_complete kws => s.set_auto_complete kws
  | ScreenOp.set_commands cs => s.set_commands cs
  | ScreenOp.next_suggestion => s.next_suggestion
  | ScreenOp.previous_suggestion => s.previous_suggestion
  | ScreenOp.next_command => s.next_command
  | ScreenOp.previous_command => s.previous_command

/-- Editor states reachable from the initial state via the public
operations. -/
inductive Screen.Reachable : Screen → Prop where
  | init : Screen.Reachable Screen.init
  | step {s : Screen} (op : ScreenOp) : Screen.Reachable s → Screen.Reachable (s.apply op)

/-- Relation between a selection index and the length of its list: `none`
exactly on the empty list, and any selected index in bounds. -/
def SelInv : Option Nat → Nat → Prop
  | none, len => len = 0
  | some i, len => i < len

instance : (sel : Option Nat) → (len : Nat) → Decidable (SelInv sel len)
  | none, len => inferInstanceAs (Decidable (len = 0))
  | some i, len => inferInstanceAs (Decidable (i < len))

/-- The spec's editor-state invariant: each selection index is `none`
exactly when its list is empty. -/
def Screen.SelectionInv (s : Screen) : Prop :=
  (s.selected_auto_complete_index = none ↔ s.auto_complete = []) ∧
  (s.selected_command_index = none ↔ s.commands = [])

instance (s : Screen) : Decidable s.SelectionInv :=
  inferInstanceAs (Decidable (_ ∧ _))

/-- The strengthened invariant that actually holds on reachable states:
selection indices are additionally in bounds. -/
def Screen.StrongInv (s : Screen) : Prop :=
  SelInv s.selected_auto_complete_index s.auto_complete.length ∧
  SelInv s.selected_command_index s.commands.length

/-- The outcome of processing one keystroke (src/main.rs
`InputLoopAction`). -/
inductive InputLoopAction where
  | Continue
  | Cancel
  | Success (cmd : String)
deriving DecidableEq

/-- The input controller's state (src/main.rs `Runner`): the catalog and
the editor state.  The inverted index is derived from `commands`
(`kwdIndex`, `hasKeyword`); its key-enumeration order is a parameter of
the functions that iterate it. -/
structure Runner where
  commands : List Command
  screen : Screen
deriving DecidableEq

/-- The strings of the `valid`-tagged validated keywords, as collected by
`Runner::filter_commands` (src/main.rs lines 160-164). -/
def Screen.valid_keyword_strings (s : Screen) : List String :=
  s.validated_keywords.filterMap (fun vk => match vk with
    | ValidatedKeyword.valid kw => some kw
    | ValidatedKeyword.invalid _ => none)

/-- `Runner::filter_commands` (src/main.rs lines 154-190): recompute the
eligible commands and matching keywords from the current input and the
`valid` validated keywords, then install them via `set_commands` and
`set_auto_complete`.  Unlike `Suggestion::from_input`, no sort is
applied. -/
def Runner.filter_commands (keys : List String) (r : Runner) : Runner :=
  let core := suggestionCore keys r.commands r.screen.input r.screen.valid_keyword_strings
  { r with screen := (r.screen.set_commands core.2).set_auto_complete core.1 }

/-- `Runner::validate_keyword` (src/main.rs lines 192-200): take the
input buffer, tag it `valid` iff it is a key of the inverted index, and
append it to the validated list. -/
def Runner.validate_keyword (r : Runner) : Runner :=
  let input := (r.screen.reset_input).1
  let vkw := if hasKeyword r.commands input then ValidatedKeyword.valid input
             else ValidatedKeyword.invalid input
  { r with screen := (r.screen.reset_input).2.add_validated_keyword vkw }

/-- Abstract key events reaching the controller (src/main.rs
`process_key` patterns over `termion::event::Key`).  Enter, Tab, Space
and `q` arrive as `char` events. -/
inductive Key where
  | char (c : Char)
  | backspace
  | left
  | right
  | up
  | down
  | other

/-- `Runner::process_key` (src/main.rs lines 107-137): one step of the
keystroke state machine. -/
def Runner.process_key (keys : List String) (r : Runner) (k : Key) : InputLoopAction × Runner :=
  match k with
  | Key.char 'q' => (InputLoopAction.Cancel, r)
  | Key.char '\n' =>
    match r.screen.selected_command with
    | some c => (InputLoopAction.Success c.cmd.original, r)
    | none => (InputLoopAction.Continue, r)
  | Key.char '\t' =>
    (InputLoopAction.Continue, Runner.filter_commands keys { r with screen := r.screen.complete })
  | Key.char ' ' => (InputLoopAction.Continue, r.validate_keyword)
  | Key.char c =>
    (InputLoopAction.Continue, Runner.filter_commands keys { r with screen := r.screen.add c })
  | Key.backspace =>
    (InputLoopAction.Continue, Runner.filter_commands keys { r with screen := r.screen.remove_last_char })
  | Key.right => (InputLoopAction.Continue, { r with screen := r.screen.next_suggestion })
  | Key.left => (InputLoopAction.Continue, { r with screen := r.screen.previous_suggestion })
  | Key.up => (InputLoopAction.Continue, { r with screen := r.screen.previous_command })
  | Key.down => (InputLoopAction.Continue, { r with screen := r.screen.next_command })
  | Key.other => (InputLoopAction.Continue, r)

/-- A string in which every opening brace is followed by a closing brace
later in the text, so the template grammar never encounters an
unterminated placeholder opener. -/
def bracesClosed : List Char → Bool
  | [] => true
  | c :: t => (if c = '\x7b' then t.contains '\x7d' else true) && bracesClosed t

/-- The value list padded with empty strings up to the number of chunks,
used to state the interpolation characterization. -/
def padValues (values : List String) (n : Nat) : List String :=
  values.take n ++ List.replicate (n - values.length) ""

/-- A small concrete command used by witnesses and counterexamples. -/
def demoCommand : Command :=
  { cmd := Placeholders.parse "du -sh /nix/store",
    description := some "Show the size of the Nix store",
    keywords := ["k"] }

/-- A command whose two keywords share the prefix `a`, so a prefix search
matches it via both. -/
def twoKeywordCommand : Command :=
  { cmd := Placeholders.parse "echo hi",
    description := none,
    keywords := ["aa", "ab"] }

/-- A runner whose screen has a selected command, for the Enter-key
witness. -/
def demoRunnerSelected : Runner :=
  { commands := [demoCommand],
    screen := { Screen.init with commands := [demoCommand],
                                 selected_command_index := some 0 } }

/-- A runner with no selected command and an empty input buffer, for the
Enter- and Space-key witnesses. -/
def demoRunnerEmpty : Runner :=
  { commands := [demoCommand], screen := Screen.init }

/-! Section: List helpers for the parser proofs -/

theorem length_dropWhile_le {α : Type} (p : α → Bool) : ∀ l : List α, (l.dropWhile p).length ≤ l.length
  | [] => Nat.le_refl _
  | a :: l => by
    rw [List.dropWhile_cons]
    split
    · exact Nat.le_succ_of_le (length_dropWhile_le p l)
    · exact Nat.le_refl _

theorem dropWhile_head_false {α : Type} {p : α → Bool} :
    ∀ {l : List α} {x : α} {xs : List α}, l.dropWhile p = x :: xs → p x = false := by
  intro l
  induction l with
  | nil => intro x xs h; cases h
  | cons a as ih =>
    intro x xs h
    rw [List.dropWhile_cons] at h
    by_cases hp : p a = true
    · rw [if_pos hp] at h
      exact ih h
    · rw [if_neg hp] at h
      cases h
      exact Bool.eq_false_iff.mpr hp

theorem takeWhile_append_of_all {α : Type} {p : α → Bool} :
    ∀ {u : List α}, (∀ c ∈ u, p c = true) → ∀ l : List α, (u ++ l).takeWhile p = u ++ l.takeWhile p := by
  intro u
  induction u with
  | nil => intro _ l; simp
  | cons a as ih =>
    intro hu l
    have ha : p a = true := hu a (List.mem_cons_self a as)
    simp only [List.cons_append, List.takeWhile_cons, ha, if_true]
    rw [ih (fun c hc => hu c (List.mem_cons_of_mem a hc)) l]

theorem dropWhile_append_of_all {α : Type} {p : α → Bool} :
    ∀ {u : List α}, (∀ c ∈ u, p c = true) → ∀ l : List α, (u ++ l).dropWhile p = l.dropWhile p := by
  intro u
  induction u with
  | nil => intro _ l; simp
  | cons a as ih =>
    intro hu l
    have ha : p a = true := hu a (List.mem_cons_self a as)
    simp only [List.cons_append, List.dropWhile_cons, ha, if_true]
    exact ih (fun c hc => hu c (List.mem_cons_of_mem a hc)) l

theorem bracesClosed_tail {c : Char} {t : List Char} (h : bracesClosed (c :: t) = true) :
    bracesClosed t = true := by
  unfold bracesClosed at h
  exact (Bool.and_eq_true_iff.mp h).2

theorem bracesClosed_append_right : ∀ {a b : List Char}, bracesClosed (a ++ b) = true → bracesClosed b = true := by
  intro a
  induction a with
  | nil => intro b h; exact h
  | cons x xs ih => intro b h; exact ih (bracesClosed_tail h)

theorem bracesClosed_dropWhile (p : Char → Bool) :
    ∀ {l : List Char}, bracesClosed l = true → bracesClosed (l.dropWhile p) = true := by
  intro l
  induction l with
  | nil => intro h; exact h
  | cons a as ih =>
    intro h
    rw [List.dropWhile_cons]
    split
    · exact ih (bracesClosed_tail h)
    · exact h

/-! Section: The parser on brace-free and unterminated inputs -/

theorem parseGo_no_brace {fuel : Nat} (hf : 1 ≤ fuel) {v : List Char} (hv : '\x7b' ∉ v) :
    parseGo fuel v false = ([v], []) := by
  obtain ⟨f, rfl⟩ : ∃ f, fuel = f + 1 := ⟨fuel - 1, (Nat.succ_pred_eq_of_pos hf).symm⟩
  cases v with
  | nil => rfl
  | cons c vs =>
    have hdrop : (c :: vs).dropWhile (fun c => c != '\x7b') = [] :=
      List.dropWhile_eq_nil_iff.mpr (fun x hx => bne_iff_ne.mpr (fun he => hv (he ▸ hx)))
    simp only [parseGo, hdrop]

theorem parseGo_skip {fuel : Nat} {v : List Char} (hv2 : '\x7d' ∉ v) :
    parseGo (fuel + 1) ('\x7b' :: v) true = parseGo fuel v false := by
  have hdrop1 : ('\x7b' :: v).dropWhile (fun c => c != '\x7b') = '\x7b' :: v := by
    rw [List.dropWhile_cons, if_neg]
    simp
  have hdrop2 : v.dropWhile (fun c => c != '\x7d') = [] :=
    List.dropWhile_eq_nil_iff.mpr (fun x hx => bne_iff_ne.mpr (fun he => hv2 (he ▸ hx)))
  have htake : ('\x7b' :: v).takeWhile (fun c => c != '\x7b') = [] := by
    rw [List.takeWhile_cons, if_neg]
    simp
  simp only [parseGo, hdrop1, hdrop2, htake, List.isEmpty_nil, if_true]

theorem parseGo_unterminated {fuel : Nat} {u v : List Char}
    (hu : '\x7b' ∉ u) (hv1 : '\x7b' ∉ v) (hv2 : '\x7d' ∉ v)
    (hfuel : u.length + v.length + 2 ≤ fuel) :
    parseGo fuel (u ++ '\x7b' :: v) false = ([u, v], []) := by
  obtain ⟨f, rfl⟩ : ∃ f, fuel = f + 1 :=
    ⟨fuel - 1, (Nat.succ_pred_eq_of_pos (Nat.lt_of_lt_of_le (Nat.succ_pos _) hfuel)).symm⟩
  have hall : ∀ c ∈ u, (fun c => c != '\x7b') c = true :=
    fun c hc => bne_iff_ne.mpr (fun he => hu (he ▸ hc))
  have hdropu : (u ++ '\x7b' :: v).dropWhile (fun c => c != '\x7b') = '\x7b' :: v := by
    rw [dropWhile_append_of_all hall, List.dropWhile_cons, if_neg]
    simp
  have htakeu : (u ++ '\x7b' :: v).takeWhile (fun c => c != '\x7b') = u := by
    rw [takeWhile_append_of_all hall, List.takeWhile_cons, if_neg, List.append_nil]
    simp
  have hdrop2 : v.dropWhile (fun c => c != '\x7d') = [] :=
    List.dropWhile_eq_nil_iff.mpr (fun x hx => bne_iff_ne.mpr (fun he => hv2 (he ▸ hx)))
  cases u with
  | nil =>
    have hf1 : 1 ≤ f := by
      simp only [List.length_nil] at hfuel
      omega
    simp only [List.nil_append] at hdropu htakeu ⊢
    simp only [parseGo, hdropu, hdrop2, htakeu, List.isEmpty_nil, if_true]
    rw [parseGo_no_brace hf1 hv1]
    simp
  | cons a u' =>
    obtain ⟨f', rfl⟩ : ∃ f', f = f' + 1 := by
      refine ⟨f - 1, ?_⟩
      simp only [List.length_cons] at hfuel
      omega
    have hfv : 1 ≤ f' := by
      simp only [List.length_cons] at hfuel
      omega
    have hdropbv : List.dropWhile (fun c => c != '\x7b') ('\x7b' :: v) = '\x7b' :: v := by
      rw [List.dropWhile_cons, if_neg]
      simp
    have htakebv : List.takeWhile (fun c => c != '\x7b') ('\x7b' :: v) = [] := by
      rw [List.takeWhile_cons, if_neg]
      simp
    have hnbv : parseGo f' v false = ([v], []) := parseGo_no_brace hfv hv1
    have hcons : (a :: u') ++ '\x7b' :: v = a :: (u' ++ '\x7b' :: v) := by simp
    simp only [hcons] at hdropu htakeu ⊢
    simp only [parseGo, hdropu, hdrop2, htakeu, hdropbv, htakebv, hnbv, List.isEmpty_nil,
      List.isEmpty_cons, if_true]
    simp

/-! Section: Chunk and name counts on brace-closed inputs -/

theorem parseGo_lengths :
    ∀ (fuel : Nat) (t : List Char) (adj : Bool), t.length < fuel → bracesClosed t = true →
      (((parseGo fuel t adj).1.length = (parseGo fuel t adj).2.length + 1) ∨
        ((parseGo fuel t adj).1.length = (parseGo fuel t adj).2.length)) ∧
      (adj = false → (parseGo fuel t adj).2 = [] → (parseGo fuel t adj).1 = [t]) := by
  intro fuel
  induction fuel with
  | zero => intro t adj hlen _; exact absurd hlen (Nat.not_lt_zero _)
  | succ f ih =>
    intro t adj hlen hbc
    cases t with
    | nil =>
      cases adj
      · exact ⟨Or.inl rfl, fun _ _ => rfl⟩
      · exact ⟨Or.inr rfl, fun h => nomatch h⟩
    | cons c ts =>
      cases h1 : (c :: ts).dropWhile (fun x => x != '\x7b') with
      | nil =>
        simp [parseGo, h1]
      | cons brace rest =>
        have hbrace : brace = '\x7b' := by
          have hfalse := dropWhile_head_false h1
          simpa using hfalse
        subst hbrace
        have hbcd : bracesClosed ('\x7b' :: rest) = true := by
          have h := bracesClosed_dropWhile (fun x => x != '\x7b') hbc
          rwa [h1] at h
        have hbcd' := hbcd
        simp only [bracesClosed] at hbcd'
        rw [if_pos trivial] at hbcd'
        obtain ⟨hcontains, hbcrest⟩ := Bool.and_eq_true_iff.mp hbcd'
        have hmem : '\x7d' ∈ rest := by simpa [List.contains] using hcontains
        cases h2 : rest.dropWhile (fun x => x != '\x7d') with
        | nil =>
          exfalso
          have h := List.dropWhile_eq_nil_iff.mp h2 _ hmem
          simp at h
        | cons hd2 after =>
          have hlr : rest.length + 1 ≤ ts.length + 1 := by
            have h := length_dropWhile_le (fun x => x != '\x7b') (c :: ts)
            rw [h1] at h
            simpa using h
          have hla : after.length + 1 ≤ rest.length := by
            have h := length_dropWhile_le (fun x => x != '\x7d') rest
            rw [h2] at h
            simpa using h
          have hlen' : after.length < f := by
            simp only [List.length_cons] at hlen
            omega
          have hbca : bracesClosed after = true := by
            have h := bracesClosed_dropWhile (fun x => x != '\x7d') hbcrest
            rw [h2] at h
            exact bracesClosed_tail h
          have ihr := ih after true hlen' hbca
          simp only [parseGo, h1, h2]
          constructor
          · rcases ihr.1 with h | h
            · left; simp [h]
            · right; simp [h]
          · intro _ hne
            exact absurd hne (List.cons_ne_nil _ _)

theorem parseGo_ends_with_placeholder :
    ∀ (fuel : Nat) (t : List Char) (adj : Bool), t.length < fuel → bracesClosed t = true →
      t ≠ [] →
      (endsWithPlaceholderGo fuel t = true →
        (parseGo fuel t adj).1.length = (parseGo fuel t adj).2.length) ∧
      (endsWithPlaceholderGo fuel t = false →
        (parseGo fuel t adj).1.length = (parseGo fuel t adj).2.length + 1) := by
  intro fuel
  induction fuel with
  | zero => intro t adj hlen _ _; exact absurd hlen (Nat.not_lt_zero _)
  | succ f ih =>
    intro t adj hlen hbc hne
    obtain ⟨c, ts, rfl⟩ : ∃ c ts, t = c :: ts := by
      cases t with
      | nil => exact absurd rfl hne
      | cons c ts => exact ⟨c, ts, rfl⟩
    cases h1 : (c :: ts).dropWhile (fun x => x != '\x7b') with
    | nil =>
      constructor
      · intro htrue
        exfalso
        simp only [endsWithPlaceholderGo, h1] at htrue
        exact Bool.noConfusion htrue
      · intro _
        simp [parseGo, h1]
    | cons brace rest =>
      have hbrace : brace = '\x7b' := by
        have hfalse := dropWhile_head_false h1
        simpa using hfalse
      subst hbrace
      have hbcd : bracesClosed ('\x7b' :: rest) = true := by
        have h := bracesClosed_dropWhile (fun x => x != '\x7b') hbc
        rwa [h1] at h
      have hbcd' := hbcd
      simp only [bracesClosed] at hbcd'
      rw [if_pos trivial] at hbcd'
      obtain ⟨hcontains, hbcrest⟩ := Bool.and_eq_true_iff.mp hbcd'
      have hmem : '\x7d' ∈ rest := by simpa [List.contains] using hcontains
      cases h2 : rest.dropWhile (fun x => x != '\x7d') with
      | nil =>
        exfalso
        have h := List.dropWhile_eq_nil_iff.mp h2 _ hmem
        simp at h
      | cons hd2 after =>
        by_cases hae : after.isEmpty = true
        · have hanil : after = [] := by
            cases after with
            | nil => rfl
            | cons x xs => simp at hae
          subst hanil
          have hnil : parseGo f [] true = ([], []) := by
            cases f with
            | zero => rfl
            | succ f2 => rfl
          constructor
          · intro _
            simp [parseGo, h1, h2, hnil]
          · intro hfalse
            exfalso
            simp only [endsWithPlaceholderGo, h1, h2, List.isEmpty_nil, if_true] at hfalse
            exact Bool.noConfusion hfalse
        · have hane : after ≠ [] := by
            intro hh
            rw [hh] at hae
            exact hae rfl
          have hlr : rest.length + 1 ≤ ts.length + 1 := by
            have h := length_dropWhile_le (fun x => x != '\x7b') (c :: ts)
            rw [h1] at h
            simpa using h
          have hla : after.length + 1 ≤ rest.length := by
            have h := length_dropWhile_le (fun x => x != '\x7d') rest
            rw [h2] at h
            simpa using h
          have hlen2 : after.length < f := by
            simp only [List.length_cons] at hlen
            omega
          have hbca : bracesClosed after = true := by
            have h := bracesClosed_dropWhile (fun x => x != '\x7d') hbcrest
            rw [h2] at h
            exact bracesClosed_tail h
          have ihr := ih after true hlen2 hbca hane
          have hewp : endsWithPlaceholderGo (f + 1) (c :: ts) = endsWithPlaceholderGo f after := by
            simp only [endsWithPlaceholderGo, h1, h2]
            rw [if_neg hae]
          constructor
          · intro htrue
            rw [hewp] at htrue
            have hr := ihr.1 htrue
            simp [parseGo, h1, h2, hr]
          · intro hfalse
            rw [hewp] at hfalse
            have hr := ihr.2 hfalse
            simp [parseGo, h1, h2, hr]


/-! Section: Joining interleaved chunks and values -/

theorem join_cons (s : String) (l : List String) : String.join (s :: l) = s ++ String.join l := by
  apply String.ext
  simp [String.join_eq, String.data_append]

theorem append_empty_str (s : String) : s ++ "" = s := by
  apply String.ext
  simp [String.data_append]

theorem zipWith_append_replicate_empty :
    ∀ xs : List String, List.zipWith (fun a b => a ++ b) xs (List.replicate xs.length "") = xs := by
  intro xs
  induction xs with
  | nil => rfl
  | cons x l ih => simp [List.replicate_succ, ih, append_empty_str]

theorem padValues_nil (n : Nat) : padValues [] n = List.replicate n "" := by
  simp [padValues]

theorem padValues_cons (y : String) (ys : List String) (n : Nat) :
    padValues (y :: ys) (n + 1) = y :: padValues ys n := by
  simp [padValues, List.take_succ_cons, Nat.succ_sub_succ]

theorem join_interleave :
    ∀ (c v : List String),
      String.join (interleave c v) =
        String.join (List.zipWith (fun a b => a ++ b) c (padValues v c.length)) ++
          String.join (v.drop c.length) := by
  intro c
  induction c with
  | nil =>
    intro v
    show String.join v = String.join [] ++ String.join v
    rfl
  | cons x xs ih =>
    intro v
    cases v with
    | nil =>
      show String.join (x :: xs) = _ ++ String.join []
      rw [List.length_cons, padValues_nil, List.replicate_succ]
      show String.join (x :: xs) =
        String.join ((x ++ "") :: List.zipWith (fun a b => a ++ b) xs (List.replicate xs.length "")) ++ ""
      rw [zipWith_append_replicate_empty, append_empty_str, append_empty_str]
    | cons y ys =>
      show String.join (x :: y :: interleave xs ys) = _
      rw [List.length_cons, padValues_cons, List.drop_succ_cons]
      show String.join (x :: y :: interleave xs ys) =
        String.join ((x ++ y) :: List.zipWith (fun a b => a ++ b) xs (padValues ys xs.length)) ++
          String.join (ys.drop xs.length)
      rw [join_cons, join_cons, join_cons, ih ys, String.append_assoc, String.append_assoc]

/-! Section: Claims C4, C5, C6: the template parser and interpolation -/

/-- Claim C4, counterexample.  For the input `a{x}` (a string ending in a
placeholder, which the claim explicitly covers) the parser yields chunks
`["a"]` and names `["x"]`, so `len(chunks) = len(names)`, not
`len(names) + 1`; and for the unterminated input `a{x` the parser yields
chunks `["a", "x"]` with no placeholder parsed, so the claimed fallback
`chunks == [s]` fails as well. -/
theorem C4_parse_counterexample :
    (Placeholders.parse "a\x7bx\x7d").cmd_chunks = ["a"] ∧
    (Placeholders.parse "a\x7bx\x7d").names = ["x"] ∧
    (Placeholders.parse "a\x7bx\x7d").cmd_chunks.length ≠
      (Placeholders.parse "a\x7bx\x7d").names.length + 1 ∧
    (Placeholders.parse "a\x7bx").names = [] ∧
    (Placeholders.parse "a\x7bx").cmd_chunks ≠ ["a\x7bx"] := by
  refine ⟨by decide, by decide, by decide, by decide, by decide⟩

/-- Claim C4, amended.  For every string in which each opening brace is
matched by a later closing brace, `Placeholders.parse` satisfies
`len(chunks) = len(names) + 1` exactly when the string does not end with
a placeholder; when it does end with a placeholder the trailing empty
chunk is omitted and `len(chunks) = len(names)`; and when no placeholder
is parsed, `chunks = [s]` and `names = []`. -/
theorem C4_parse_chunk_name_invariant (s : String) (h : bracesClosed s.data = true) :
    (endsWithPlaceholder s = true →
      (Placeholders.parse s).cmd_chunks.length = (Placeholders.parse s).names.length) ∧
    (endsWithPlaceholder s = false →
      (Placeholders.parse s).cmd_chunks.length = (Placeholders.parse s).names.length + 1) ∧
    ((Placeholders.parse s).names = [] → (Placeholders.parse s).cmd_chunks = [s]) := by
  have hlem := parseGo_lengths (s.data.length + 1) s.data false (Nat.lt_succ_self _) h
  by_cases hne : s.data = []
  · refine ⟨?_, ?_, ?_⟩
    · intro htrue
      exfalso
      rw [endsWithPlaceholder, hne] at htrue
      exact Bool.noConfusion htrue
    · intro _
      show (List.map (fun l => String.mk l) (parseGo (s.data.length + 1) s.data false).1).length =
        (List.map (fun l => String.mk l) (parseGo (s.data.length + 1) s.data false).2).length + 1
      rw [hne]
      rfl
    · intro _
      show List.map (fun l => String.mk l) (parseGo (s.data.length + 1) s.data false).1 = [s]
      rw [hne]
      show [String.mk []] = [s]
      rw [show s = String.mk s.data from rfl, hne]
  · have hewp := parseGo_ends_with_placeholder (s.data.length + 1) s.data false
      (Nat.lt_succ_self _) h hne
    refine ⟨?_, ?_, ?_⟩
    · intro htrue
      have hr := hewp.1 htrue
      simpa [Placeholders.parse] using hr
    · intro hfalse
      have hr := hewp.2 hfalse
      simpa [Placeholders.parse] using hr
    · intro hn
      have h2 : (parseGo (s.data.length + 1) s.data false).2 = [] := by
        simpa [Placeholders.parse] using hn
      have h1 := hlem.2 rfl h2
      show List.map (fun l => String.mk l) (parseGo (s.data.length + 1) s.data false).1 = [s]
      rw [h1]
      rfl

/-- Claim C4, witness for the amended theorem at the two concrete
balanced inputs `a{x}y` (not ending with a placeholder, so chunks =
names + 1) and `a{x}` (ending with a placeholder, so chunks = names). -/
theorem C4_parse_chunk_name_invariant_witness :
    bracesClosed ("a\x7bx\x7dy" : String).data = true ∧
    endsWithPlaceholder "a\x7bx\x7dy" = false ∧
    (Placeholders.parse "a\x7bx\x7dy").cmd_chunks.length =
      (Placeholders.parse "a\x7bx\x7dy").names.length + 1 ∧
    bracesClosed ("a\x7bx\x7d" : String).data = true ∧
    endsWithPlaceholder "a\x7bx\x7d" = true ∧
    (Placeholders.parse "a\x7bx\x7d").cmd_chunks.length =
      (Placeholders.parse "a\x7bx\x7d").names.length :=
  ⟨by decide, by decide,
   (C4_parse_chunk_name_invariant "a\x7bx\x7dy" (by decide)).2.1 (by decide),
   by decide, by decide,
   (C4_parse_chunk_name_invariant "a\x7bx\x7d" (by decide)).1 (by decide)⟩

/-- Claim C5, counterexample.  Parsing `a{x` succeeds, but the
unterminated opening brace is dropped: the chunks are `["a", "x"]` and the
brace character appears in no chunk, so input characters outside
well-formed placeholders are lost. -/
theorem C5_unterminated_counterexample :
    (Placeholders.parse "a\x7bx").cmd_chunks = ["a", "x"] ∧
    (Placeholders.parse "a\x7bx").names = [] ∧
    ('\x7b' ∈ (String.join (Placeholders.parse "a\x7bx").cmd_chunks).data → False) := by
  refine ⟨by decide, by decide, by decide⟩

/-- Claim C5, amended.  Parsing a string with a single unterminated
opening brace succeeds and keeps the text before and after the brace as
literal chunk content, but the brace itself is dropped: for brace-free
`u` and `v` (with no closing brace in `v`),
`parse (u ++ "\x7b" ++ v)` has chunks `[u, v]` and no names. -/
theorem C5_unterminated_brace_literal_text (u v : List Char)
    (hu : '\x7b' ∉ u) (hv1 : '\x7b' ∉ v) (hv2 : '\x7d' ∉ v) :
    (Placeholders.parse (String.mk (u ++ '\x7b' :: v))).cmd_chunks = [String.mk u, String.mk v] ∧
    (Placeholders.parse (String.mk (u ++ '\x7b' :: v))).names = [] := by
  have hfuel : u.length + v.length + 2 ≤ (String.mk (u ++ '\x7b' :: v)).data.length + 1 := by
    simp
    omega
  have hgo := parseGo_unterminated hu hv1 hv2 hfuel
  constructor
  · show ((parseGo ((u ++ '\x7b' :: v).length + 1) (u ++ '\x7b' :: v) false).1.map
      (fun l => String.mk l)) = _
    rw [hgo]
    rfl
  · show ((parseGo ((u ++ '\x7b' :: v).length + 1) (u ++ '\x7b' :: v) false).2.map
      (fun l => String.mk l)) = _
    rw [hgo]
    rfl

/-- Claim C5, witness for the amended theorem at the concrete input
`a{x`. -/
theorem C5_unterminated_brace_literal_text_witness :
    '\x7b' ∉ (['a'] : List Char) ∧ '\x7b' ∉ (['x'] : List Char) ∧ '\x7d' ∉ (['x'] : List Char) ∧
    ((Placeholders.parse (String.mk (['a'] ++ '\x7b' :: ['x']))).cmd_chunks =
        [String.mk ['a'], String.mk ['x']] ∧
      (Placeholders.parse (String.mk (['a'] ++ '\x7b' :: ['x']))).names = []) :=
  ⟨by decide, by decide, by decide,
    C5_unterminated_brace_literal_text ['a'] ['x'] (by decide) (by decide) (by decide)⟩

/-- Claim C6, counterexample.  Interpolating the template parsed from
`a{x}b` (one placeholder, chunks `["a", "b"]`) with the two values
`["v", "w"]` yields `avbw`: the extra value `w` is appended to the
output, whereas the claim says extras are ignored (which would give
`avb`). -/
theorem C6_interpolate_counterexample :
    (Placeholders.parse "a\x7bx\x7db").cmd_chunks = ["a", "b"] ∧
    (Placeholders.parse "a\x7bx\x7db").names = ["x"] ∧
    (Placeholders.parse "a\x7bx\x7db").interpolate ["v", "w"] = "avbw" ∧
    ("avbw" : String) ≠ "avb" := by
  refine ⟨by decide, by decide, by decide, by decide⟩

/-- Claim C6, amended.  `interpolate` pairs `chunk[i]` with `value[i]` in
strict alternation starting with `chunks[0]`; missing tail values behave
as empty strings (so the trailing chunks are appended); but when more
values than chunks are supplied the extra values are appended at the end
of the output instead of being ignored. -/
theorem C6_interpolate_alternation (p : Placeholders) (values : List String) :
    p.interpolate values =
      String.join (List.zipWith (fun a b => a ++ b) p.cmd_chunks
          (padValues values p.cmd_chunks.length)) ++
        String.join (values.drop p.cmd_chunks.length) :=
  join_interleave p.cmd_chunks values

/-! Section: Suggestion-engine lemmas -/

theorem mem_validatedCommands {catalog : List Command} {V : List String} {c : Command}
    (h : c ∈ validatedCommands catalog V) : c ∈ catalog ∧ ∀ kw ∈ V, kw ∈ c.keywords := by
  cases V with
  | nil =>
    rw [validatedCommands] at h
    simp only [List.isEmpty_nil, if_true] at h
    exact ⟨List.mem_dedup.mp h, by simp⟩
  | cons a as =>
    rw [validatedCommands] at h
    simp only [List.isEmpty_cons, Bool.false_eq_true, if_false] at h
    have h' := List.mem_filter.mp (List.mem_dedup.mp h)
    refine ⟨h'.1, ?_⟩
    intro kw hkw
    have := List.all_eq_true.mp h'.2 kw hkw
    simpa [List.contains, List.elem_iff] using this

theorem count_nodup (c : Command) (l : List Command) (h : l.Nodup) :
    l.count c = if c ∈ l then 1 else 0 := by
  by_cases hc : c ∈ l
  · rw [if_pos hc]
    exact List.count_eq_one_of_mem h hc
  · rw [if_neg hc]
    exact List.count_eq_zero_of_not_mem hc

theorem count_flatMap_indexed (c : Command) (f : String → List Command)
    (hf : ∀ kw, (f kw).Nodup) :
    ∀ l : List String, ((l.flatMap f).count c) = (l.filter (fun kw => (f kw).contains c)).length := by
  intro l
  induction l with
  | nil => rfl
  | cons k ks ih =>
    rw [List.flatMap_cons, List.count_append, ih, List.filter_cons]
    by_cases hc : c ∈ f k
    · have hb : (f k).contains c = true := by simpa [List.contains, List.elem_iff] using hc
      rw [count_nodup c _ (hf k), if_pos hc, hb]
      simp [Nat.add_comm]
    · have hb : (f k).contains c = false := by
        simp only [List.contains]
        exact Bool.eq_false_iff.mpr (fun he => hc (List.elem_iff.mp he))
      rw [count_nodup c _ (hf k), if_neg hc, hb]
      simp

theorem nodup_kwdIndex (catalog : List Command) (kw : String) : (kwdIndex catalog kw).Nodup :=
  List.nodup_dedup _

theorem mem_of_contains_true {l : List Command} {c : Command} (h : l.contains c = true) : c ∈ l := by
  simpa [List.contains, List.elem_iff] using h

theorem not_mem_of_contains_false {l : List Command} {c : Command} (h : l.contains c = false) :
    c ∉ l := by
  intro hm
  have hc : l.contains c = true := by simpa [List.contains, List.elem_iff] using hm
  rw [h] at hc
  cases hc

theorem suggestionCore_count (keys : List String) (catalog : List Command) (input : String)
    (V : List String) (c : Command) :
    ((suggestionCore keys catalog input V).2).count c = suggestedCount keys catalog input V c := by
  unfold suggestionCore suggestedCount
  by_cases hin : input.data.isEmpty = true
  · rw [if_pos hin, if_pos hin]
    exact count_nodup c _ (List.nodup_dedup _)
  · rw [if_neg hin, if_neg hin]
    show ((List.filter _ keys).flatMap _).count c = _
    rw [count_flatMap_indexed c _ (fun kw => (nodup_kwdIndex catalog kw).filter _), List.filter_filter]
    apply congrArg List.length
    apply List.filter_congr
    intro kw _
    rcases h1 : (kwdIndex catalog kw).contains c with _ | _ <;>
      rcases h2 : (validatedCommands catalog V).contains c with _ | _ <;>
      rcases h3 : input.data.isPrefixOf kw.data && !V.contains kw with _ | _ <;>
      simp only [h1, h2, h3, Bool.and_true, Bool.and_false, Bool.true_and, Bool.false_and] <;>
      simp [List.contains, List.elem_iff, List.mem_filter] <;>
      first
        | exact ⟨mem_of_contains_true h1, mem_of_contains_true h2⟩
        | exact fun _ => not_mem_of_contains_false h2
        | exact fun hm => absurd hm (not_mem_of_contains_false h1)

/-! Section: Claims C1, C2, C3: the suggestion engine -/

/-- Claim C1, counterexample.  A command carrying the two keywords `aa`
and `ab`, both extending the input `a`, is accumulated once per matching
keyword: the resulting command list is `[c, c]` — sorted, but with the
command occurring twice.  Neither `Suggestion::from_input` nor
`Runner::filter_commands` de-duplicates. -/
theorem C1_duplicate_counterexample :
    KeysOf [twoKeywordCommand] ["aa", "ab"] ∧
    (Suggestion.from_input ["aa", "ab"] [twoKeywordCommand] "a" []).commands =
      [twoKeywordCommand, twoKeywordCommand] ∧
    ¬ (Suggestion.from_input ["aa", "ab"] [twoKeywordCommand] "a" []).commands.Nodup := by
  refine ⟨⟨by decide, ?_⟩, by decide, by decide⟩
  intro k
  simp [twoKeywordCommand]

/-- Claim C1, amended.  For every catalog, input, validated-keyword set
and key enumeration, the command list of `Suggestion::from_input` is
sorted by the canonical command order, and each command occurs with
multiplicity `suggestedCount`: once if the input is empty and it is a
validated command, and otherwise once per enumerated keyword that
extends the input, is not validated, and indexes the command — so a
command matched via several keywords occurs several times (no
de-duplication).  `Runner::filter_commands` accumulates the same
multiset without sorting. -/
theorem C1_sorted_with_multiplicity (keys : List String) (catalog : List Command)
    (input : String) (validated_keywords : List String) (c : Command) :
    List.Sorted cmdLE (Suggestion.from_input keys catalog input validated_keywords).commands ∧
    (Suggestion.from_input keys catalog input validated_keywords).commands.count c =
      suggestedCount keys catalog input validated_keywords c ∧
    ∀ r : Runner, ((Runner.filter_commands keys r).screen.commands).count c =
      suggestedCount keys r.commands r.screen.input r.screen.valid_keyword_strings c := by
  refine ⟨List.sorted_insertionSort cmdLE _, ?_, ?_⟩
  · show (List.insertionSort cmdLE
      (suggestionCore keys catalog input validated_keywords).2).count c = _
    rw [(List.perm_insertionSort cmdLE _).count_eq]
    exact suggestionCore_count keys catalog input validated_keywords c
  · intro r
    show ((suggestionCore keys r.commands r.screen.input r.screen.valid_keyword_strings).2).count c = _
    exact suggestionCore_count keys r.commands r.screen.input r.screen.valid_keyword_strings c

/-- Claim C2.  Every command suggested by `Suggestion::from_input` is a
catalog command whose keyword list contains every validated keyword, and
likewise every command produced by `Runner::filter_commands` relative to
the `valid`-tagged validated keywords of its screen. -/
theorem C2_suggested_commands_validated (keys : List String) (catalog : List Command)
    (input : String) (validated_keywords : List String) (c : Command) :
    (c ∈ (Suggestion.from_input keys catalog input validated_keywords).commands →
      c ∈ catalog ∧ ∀ kw ∈ validated_keywords, kw ∈ c.keywords) ∧
    ∀ r : Runner, c ∈ (Runner.filter_commands keys r).screen.commands →
      c ∈ r.commands ∧ ∀ kw ∈ r.screen.valid_keyword_strings, kw ∈ c.keywords := by
  have hcore : ∀ (cat : List Command) (V : List String) (inp : String),
      c ∈ (suggestionCore keys cat inp V).2 → c ∈ cat ∧ ∀ kw ∈ V, kw ∈ c.keywords := by
    intro cat V inp hc
    unfold suggestionCore at hc
    by_cases hin : inp.data.isEmpty = true
    · rw [if_pos hin] at hc
      exact mem_validatedCommands hc
    · rw [if_neg hin] at hc
      obtain ⟨kw, _, hcf⟩ := List.mem_flatMap.mp hc
      have hcv : c ∈ validatedCommands cat V :=
        mem_of_contains_true (List.mem_filter.mp hcf).2
      exact mem_validatedCommands hcv
  constructor
  · intro hc
    exact hcore catalog validated_keywords input
      (((List.perm_insertionSort cmdLE _).mem_iff).mp hc)
  · intro r hc
    exact hcore r.commands r.screen.valid_keyword_strings r.screen.input hc

/-- Claim C2, witness at the one-command catalog with empty input and no
validated keywords. -/
theorem C2_suggested_commands_validated_witness :
    demoCommand ∈ (Suggestion.from_input ["k"] [demoCommand] "" []).commands ∧
    (demoCommand ∈ ([demoCommand] : List Command) ∧
      ∀ kw ∈ ([] : List String), kw ∈ demoCommand.keywords) :=
  ⟨by decide,
   (C2_suggested_commands_validated ["k"] [demoCommand] "" [] demoCommand).1 (by decide)⟩

/-- Claim C3, counterexample.  With a catalog holding the same command
record twice, the `HashSet` the engine routes commands through collapses
the duplicates: the result is `[c]`, not `C.commands` sorted (which is
`[c, c]`). -/
theorem C3_duplicates_counterexample :
    KeysOf [demoCommand, demoCommand] ["k"] ∧
    (Suggestion.from_input ["k"] [demoCommand, demoCommand] "" []).keywords = [] ∧
    (Suggestion.from_input ["k"] [demoCommand, demoCommand] "" []).commands = [demoCommand] ∧
    (Suggestion.from_input ["k"] [demoCommand, demoCommand] "" []).commands ≠
      sortCommands [demoCommand, demoCommand] := by
  refine ⟨⟨by decide, ?_⟩, by decide, by decide, by decide⟩
  intro k
  simp [demoCommand]

/-- Claim C3, amended.  With empty input and no validated keywords the
engine returns no keywords and the catalog's distinct commands sorted by
the canonical order: the command list is sorted, duplicate-free, and
contains exactly the commands of the catalog (duplicate catalog records
appear once). -/
theorem C3_empty_input_sorted_dedup (keys : List String) (catalog : List Command) :
    (Suggestion.from_input keys catalog "" []).keywords = [] ∧
    List.Sorted cmdLE (Suggestion.from_input keys catalog "" []).commands ∧
    (Suggestion.from_input keys catalog "" []).commands.Nodup ∧
    ∀ c : Command, (c ∈ (Suggestion.from_input keys catalog "" []).commands ↔ c ∈ catalog) := by
  refine ⟨rfl, List.sorted_insertionSort cmdLE _, ?_, ?_⟩
  · apply ((List.perm_insertionSort cmdLE _).nodup_iff).mpr
    show (suggestionCore keys catalog "" []).2.Nodup
    exact List.nodup_dedup _
  · intro c
    show c ∈ List.insertionSort cmdLE (suggestionCore keys catalog "" []).2 ↔ c ∈ catalog
    rw [(List.perm_insertionSort cmdLE _).mem_iff]
    show c ∈ validatedCommands catalog [] ↔ c ∈ catalog
    rw [validatedCommands]
    simp only [List.isEmpty_nil, if_true]
    exact List.mem_dedup

/-! Section: Editor-state invariants -/

theorem rotate_iff {α : Type} {sel : Option Nat} {l : List α} (hiff : sel = none ↔ l = [])
    {i : Nat} (hi : sel = some i) (j : Nat) : (some j = none ↔ l = []) := by
  constructor
  · intro h'
    exact Option.noConfusion h'
  · intro he
    have hn := hiff.mpr he
    rw [hi] at hn
    exact Option.noConfusion hn

theorem selectionInv_apply {s : Screen} (h : s.SelectionInv) (op : ScreenOp) :
    (s.apply op).SelectionInv := by
  cases op with
  | add k => exact h
  | reset_input => exact h
  | add_validated_keyword v => exact h
  | remove_last_char =>
    simp only [Screen.apply, Screen.remove_last_char]
    split
    · exact h
    · exact h
  | complete =>
    simp only [Screen.apply, Screen.complete]
    split
    · exact h
    · split
      · exact h
      · exact h
  | set_suggestion sug =>
    constructor
    · show (if sug.keywords.isEmpty then none else some 0) = none ↔ sug.keywords = []
      cases sug.keywords <;> simp
    · show (if sug.commands.isEmpty then none else some 0) = none ↔ sug.commands = []
      cases sug.commands <;> simp
  | set_auto_complete kws =>
    refine ⟨?_, h.2⟩
    show (if kws.isEmpty then none else some 0) = none ↔ kws = []
    cases kws <;> simp
  | set_commands cs =>
    refine ⟨h.1, ?_⟩
    show (if cs.isEmpty then none else some 0) = none ↔ cs = []
    cases cs <;> simp
  | next_suggestion =>
    simp only [Screen.apply, Screen.next_suggestion]
    cases hi : s.selected_auto_complete_index with
    | none => exact h
    | some i => exact ⟨rotate_iff h.1 hi _, h.2⟩
  | previous_suggestion =>
    simp only [Screen.apply, Screen.previous_suggestion]
    cases hi : s.selected_auto_complete_index with
    | none => exact h
    | some i => exact ⟨rotate_iff h.1 hi _, h.2⟩
  | next_command =>
    simp only [Screen.apply, Screen.next_command]
    cases hi : s.selected_command_index with
    | none => exact h
    | some i => exact ⟨h.1, rotate_iff h.2 hi _⟩
  | previous_command =>
    simp only [Screen.apply, Screen.previous_command]
    cases hi : s.selected_command_index with
    | none => exact h
    | some i => exact ⟨h.1, rotate_iff h.2 hi _⟩

theorem strongInv_apply {s : Screen} (h : s.StrongInv) (op : ScreenOp) :
    (s.apply op).StrongInv := by
  obtain ⟨h1, h2⟩ := h
  cases op with
  | add k => exact ⟨h1, h2⟩
  | reset_input => exact ⟨h1, h2⟩
  | add_validated_keyword v => exact ⟨h1, h2⟩
  | remove_last_char =>
    simp only [Screen.apply, Screen.remove_last_char]
    split
    · exact ⟨h1, h2⟩
    · exact ⟨h1, h2⟩
  | complete =>
    simp only [Screen.apply, Screen.complete]
    split
    · exact ⟨h1, h2⟩
    · split
      · exact ⟨h1, h2⟩
      · exact ⟨h1, h2⟩
  | set_suggestion sug =>
    constructor
    · show SelInv (if sug.keywords.isEmpty then none else some 0) sug.keywords.length
      cases sug.keywords with
      | nil => exact rfl
      | cons a l => exact Nat.succ_pos _
    · show SelInv (if sug.commands.isEmpty then none else some 0) sug.commands.length
      cases sug.commands with
      | nil => exact rfl
      | cons a l => exact Nat.succ_pos _
  | set_auto_complete kws =>
    refine ⟨?_, h2⟩
    show SelInv (if kws.isEmpty then none else some 0) kws.length
    cases kws with
    | nil => exact rfl
    | cons a l => exact Nat.succ_pos _
  | set_commands cs =>
    refine ⟨h1, ?_⟩
    show SelInv (if cs.isEmpty then none else some 0) cs.length
    cases cs with
    | nil => exact rfl
    | cons a l => exact Nat.succ_pos _
  | next_suggestion =>
    simp only [Screen.apply, Screen.next_suggestion]
    cases hi : s.selected_auto_complete_index with
    | none => exact ⟨h1, h2⟩
    | some i =>
      rw [hi] at h1
      have hlt : i < s.auto_complete.length := h1
      exact ⟨Nat.mod_lt _ (Nat.zero_lt_of_lt hlt), h2⟩
  | previous_suggestion =>
    simp only [Screen.apply, Screen.previous_suggestion]
    cases hi : s.selected_auto_complete_index with
    | none => exact ⟨h1, h2⟩
    | some i =>
      rw [hi] at h1
      have hlt : i < s.auto_complete.length := h1
      refine ⟨?_, h2⟩
      show SelInv (some (if i = 0 then s.auto_complete.length - 1 else i - 1)) _
      by_cases hz : i = 0
      · rw [if_pos hz]
        exact Nat.sub_lt (Nat.zero_lt_of_lt hlt) (Nat.zero_lt_one)
      · rw [if_neg hz]
        exact Nat.lt_of_le_of_lt (Nat.sub_le i 1) hlt
  | next_command =>
    simp only [Screen.apply, Screen.next_command]
    cases hi : s.selected_command_index with
    | none => exact ⟨h1, h2⟩
    | some i =>
      rw [hi] at h2
      have hlt : i < s.commands.length := h2
      exact ⟨h1, Nat.mod_lt _ (Nat.zero_lt_of_lt hlt)⟩
  | previous_command =>
    simp only [Screen.apply, Screen.previous_command]
    cases hi : s.selected_command_index with
    | none => exact ⟨h1, h2⟩
    | some i =>
      rw [hi] at h2
      have hlt : i < s.commands.length := h2
      refine ⟨h1, ?_⟩
      show SelInv (some (if i = 0 then s.commands.length - 1 else i - 1)) _
      by_cases hz : i = 0
      · rw [if_pos hz]
        exact Nat.sub_lt (Nat.zero_lt_of_lt hlt) (Nat.zero_lt_one)
      · rw [if_neg hz]
        exact Nat.lt_of_le_of_lt (Nat.sub_le i 1) hlt

theorem strongInv_no_panic {s : Screen} (h : s.StrongInv) :
    ¬ s.complete_panics ∧ ¬ s.next_suggestion_panics ∧ ¬ s.previous_suggestion_panics ∧
      ¬ s.next_command_panics ∧ ¬ s.previous_command_panics := by
  obtain ⟨h1, h2⟩ := h
  refine ⟨?_, ?_, ?_, ?_, ?_⟩
  · rintro ⟨idx, hidx, hget⟩
    rw [hidx] at h1
    have hlt : idx < s.auto_complete.length := h1
    have hge := List.get?_eq_none.mp hget
    omega
  · rintro ⟨hsome, hempty⟩
    cases hs : s.selected_auto_complete_index with
    | none =>
      rw [hs] at hsome
      exact Bool.noConfusion hsome
    | some i =>
      rw [hs] at h1
      have hlt : i < s.auto_complete.length := h1
      rw [hempty] at hlt
      exact absurd hlt (by simp)
  · rintro ⟨hsel, hempty⟩
    rw [hsel] at h1
    have hlt : (0 : Nat) < s.auto_complete.length := h1
    rw [hempty] at hlt
    exact absurd hlt (by simp)
  · rintro ⟨hsome, hempty⟩
    cases hs : s.selected_command_index with
    | none =>
      rw [hs] at hsome
      exact Bool.noConfusion hsome
    | some i =>
      rw [hs] at h2
      have hlt : i < s.commands.length := h2
      rw [hempty] at hlt
      exact absurd hlt (by simp)
  · rintro ⟨hsel, hempty⟩
    rw [hsel] at h2
    have hlt : (0 : Nat) < s.commands.length := h2
    rw [hempty] at hlt
    exact absurd hlt (by simp)

/-! Section: Claims C7-C10: editor state and keystroke machine -/

/-- Claim C7.  Every public editor operation preserves the invariant that
each selection index is `none` exactly when its list is empty; and after
replacing a list (`set_suggestion`, `set_commands`, `set_auto_complete`)
the corresponding selection is `some 0` iff the new list is non-empty. -/
theorem C7_selection_invariant (s : Screen) (op : ScreenOp) (h : s.SelectionInv) :
    (s.apply op).SelectionInv ∧
    (∀ sug : Suggestion,
      ((s.set_suggestion sug).selected_auto_complete_index = some 0 ↔ sug.keywords ≠ []) ∧
      ((s.set_suggestion sug).selected_command_index = some 0 ↔ sug.commands ≠ [])) ∧
    (∀ cmds : List Command,
      ((s.set_commands cmds).selected_command_index = some 0 ↔ cmds ≠ [])) ∧
    (∀ kws : List String,
      ((s.set_auto_complete kws).selected_auto_complete_index = some 0 ↔ kws ≠ [])) := by
  refine ⟨selectionInv_apply h op, ?_, ?_, ?_⟩
  · intro sug
    constructor
    · show (if sug.keywords.isEmpty then none else some 0) = some 0 ↔ sug.keywords ≠ []
      cases sug.keywords <;> simp
    · show (if sug.commands.isEmpty then none else some 0) = some 0 ↔ sug.commands ≠ []
      cases sug.commands <;> simp
  · intro cmds
    show (if cmds.isEmpty then none else some 0) = some 0 ↔ cmds ≠ []
    cases cmds <;> simp
  · intro kws
    show (if kws.isEmpty then none else some 0) = some 0 ↔ kws ≠ []
    cases kws <;> simp

/-- Claim C7, witness at the initial editor state. -/
theorem C7_selection_invariant_witness :
    Screen.SelectionInv (Screen.init.apply ScreenOp.remove_last_char) ∧
    (∀ sug : Suggestion,
      ((Screen.init.set_suggestion sug).selected_auto_complete_index = some 0 ↔
        sug.keywords ≠ []) ∧
      ((Screen.init.set_suggestion sug).selected_command_index = some 0 ↔ sug.commands ≠ [])) ∧
    (∀ cmds : List Command,
      ((Screen.init.set_commands cmds).selected_command_index = some 0 ↔ cmds ≠ [])) ∧
    (∀ kws : List String,
      ((Screen.init.set_auto_complete kws).selected_auto_complete_index = some 0 ↔ kws ≠ [])) :=
  C7_selection_invariant Screen.init ScreenOp.remove_last_char (by decide)

/-- Claim C8.  Processing the Enter key returns `Success` carrying the
selected command's template original text when a command is selected,
and otherwise returns `Continue`; in both cases the state is returned
unchanged (a missing selection is a no-op, not an error). -/
theorem C8_enter_key (keys : List String) (r : Runner) :
    (∀ c : Command, r.screen.selected_command = some c →
      Runner.process_key keys r (Key.char '\n') = (InputLoopAction.Success c.cmd.original, r)) ∧
    (r.screen.selected_command = none →
      Runner.process_key keys r (Key.char '\n') = (InputLoopAction.Continue, r)) := by
  have hred : Runner.process_key keys r (Key.char '\n') =
      (match r.screen.selected_command with
       | some c => (InputLoopAction.Success c.cmd.original, r)
       | none => (InputLoopAction.Continue, r)) := rfl
  constructor
  · intro c hc
    rw [hred, hc]
  · intro hn
    rw [hred, hn]

/-- Claim C8, witness: Enter on a runner with a selected command and on
one with no selection. -/
theorem C8_enter_key_witness :
    demoRunnerSelected.screen.selected_command = some demoCommand ∧
    Runner.process_key [] demoRunnerSelected (Key.char '\n') =
      (InputLoopAction.Success demoCommand.cmd.original, demoRunnerSelected) ∧
    demoRunnerEmpty.screen.selected_command = none ∧
    Runner.process_key [] demoRunnerEmpty (Key.char '\n') =
      (InputLoopAction.Continue, demoRunnerEmpty) :=
  ⟨by decide, (C8_enter_key [] demoRunnerSelected).1 demoCommand (by decide),
   by decide, (C8_enter_key [] demoRunnerEmpty).2 (by decide)⟩

/-- Claim C9.  When the empty string is not a keyword of the catalog
index, Space appends exactly one validated keyword built from the
(possibly empty) input buffer and empties the buffer; with an empty
buffer the appended keyword is `Invalid("")` — not a no-op. -/
theorem C9_space_key (keys : List String) (r : Runner)
    (h : hasKeyword r.commands "" = false) :
    Runner.process_key keys r (Key.char ' ') =
      (InputLoopAction.Continue,
        { r with screen :=
            { r.screen with
                current_line := [],
                validated_keywords := r.screen.validated_keywords ++
                  [if hasKeyword r.commands (String.mk r.screen.current_line)
                   then ValidatedKeyword.valid (String.mk r.screen.current_line)
                   else ValidatedKeyword.invalid (String.mk r.screen.current_line)] } }) ∧
    (r.screen.current_line = [] →
      (Runner.process_key keys r (Key.char ' ')).2.screen.validated_keywords =
        r.screen.validated_keywords ++ [ValidatedKeyword.invalid ""]) := by
  have hred : Runner.process_key keys r (Key.char ' ') =
      (InputLoopAction.Continue, r.validate_keyword) := rfl
  constructor
  · rw [hred]
    rfl
  · intro hline
    rw [hred]
    have h' : hasKeyword r.commands (String.mk []) = false := h
    show (r.validate_keyword).screen.validated_keywords = _
    simp [Runner.validate_keyword, Screen.reset_input, Screen.add_validated_keyword, hline, h']

/-- Claim C9, witness: Space on a runner with an empty input buffer whose
catalog has no empty keyword. -/
theorem C9_space_key_witness :
    hasKeyword demoRunnerEmpty.commands "" = false ∧
    demoRunnerEmpty.screen.current_line = [] ∧
    (Runner.process_key [] demoRunnerEmpty (Key.char ' ')).2.screen.validated_keywords =
      demoRunnerEmpty.screen.validated_keywords ++ [ValidatedKeyword.invalid ""] :=
  ⟨by decide, by decide, (C9_space_key [] demoRunnerEmpty (by decide)).2 (by decide)⟩

/-- Claim C10.  Every editor state reachable from the initial state via
the public operations keeps both selection indices strictly within their
lists, so the `unwrap` in `complete` cannot panic, the modulo in
`next_suggestion` / `next_command` never divides by zero, and the
`len - 1` in `previous_suggestion` / `previous_command` never
underflows. -/
theorem C10_reachable_selection_in_bounds (s : Screen) (h : Screen.Reachable s) :
    s.StrongInv ∧ ¬ s.complete_panics ∧ ¬ s.next_suggestion_panics ∧
      ¬ s.previous_suggestion_panics ∧ ¬ s.next_command_panics ∧
      ¬ s.previous_command_panics := by
  have hs : s.StrongInv := by
    induction h with
    | init => exact ⟨rfl, rfl⟩
    | step op hr ih => exact strongInv_apply ih op
  exact ⟨hs, strongInv_no_panic hs⟩

/-- Claim C10, witness at the initial (reachable) state. -/
theorem C10_reachable_selection_in_bounds_witness :
    Screen.init.StrongInv ∧ ¬ Screen.init.complete_panics ∧
      ¬ Screen.init.next_suggestion_panics ∧ ¬ Screen.init.previous_suggestion_panics ∧
      ¬ Screen.init.next_command_panics ∧ ¬ Screen.init.previous_command_panics :=
  C10_reachable_selection_in_bounds Screen.init Screen.Reachable.init
